import Mathlib

set_option maxRecDepth 1000000

/-!
Verification development for the SegTool dispatch-and-cache subsystem.

Shallow embedding of:
* `server/utils/click_signature.py` (fingerprint generator, MD5 included),
* `server/embedding_cache.py` (process-local LRU embedding cache),
* `server/redis_cache.py` (codec, chunking, logit/embedding cache, cleanup),
* `services/rocketmq_integration.py` (retry/backoff/dead-letter state machine).

Machine bytes are modelled as `List Nat` (each element a byte value); Python
ints are `Int` (`//` is `Int.fdiv`); external collaborators (the Redis
backend, `pickle`, `gzip`) are modelled explicitly where noted in the
doc comments of the corresponding definitions.
-/

namespace SegTool

/-- Byte strings (values of each element are byte values 0..255). -/
abbrev Bytes := List Nat

/-! ## MD5 (as used by `hashlib.md5` in `click_signature.py`)

A complete executable model of MD5 over byte lists, so that digest equality
and inequality of concrete click signatures can be decided. -/

/-- Truncate to a 32-bit word. -/
def w32 (n : Nat) : Nat := n % 4294967296

/-- Rotate a 32-bit word left by `s` bits (for `x < 2^32`, `s ≤ 32`). -/
def rotl32 (x s : Nat) : Nat := (x % 2 ^ (32 - s)) * 2 ^ s + x / 2 ^ (32 - s)

/-- 32-bit complement (for `x < 2^32`). -/
def compl32 (x : Nat) : Nat := 4294967295 - x

/-- MD5 round constants `K[i] = floor(abs(sin(i+1)) * 2^32)`. -/
def md5K : List Nat :=
  [0xd76aa478, 0xe8c7b756, 0x242070db, 0xc1bdceee,
   0xf57c0faf, 0x4787c62a, 0xa8304613, 0xfd469501,
   0x698098d8, 0x8b44f7af, 0xffff5bb1, 0x895cd7be,
   0x6b901122, 0xfd987193, 0xa679438e, 0x49b40821,
   0xf61e2562, 0xc040b340, 0x265e5a51, 0xe9b6c7aa,
   0xd62f105d, 0x02441453, 0xd8a1e681, 0xe7d3fbc8,
   0x21e1cde6, 0xc33707d6, 0xf4d50d87, 0x455a14ed,
   0xa9e3e905, 0xfcefa3f8, 0x676f02d9, 0x8d2a4c8a,
   0xfffa3942, 0x8771f681, 0x6d9d6122, 0xfde5380c,
   0xa4beea44, 0x4bdecfa9, 0xf6bb4b60, 0xbebfbc70,
   0x289b7ec6, 0xeaa127fa, 0xd4ef3085, 0x04881d05,
   0xd9d4d039, 0xe6db99e5, 0x1fa27cf8, 0xc4ac5665,
   0xf4292244, 0x432aff97, 0xab9423a7, 0xfc93a039,
   0x655b59c3, 0x8f0ccc92, 0xffeff47d, 0x85845dd1,
   0x6fa87e4f, 0xfe2ce6e0, 0xa3014314, 0x4e0811a1,
   0xf7537e82, 0xbd3af235, 0x2ad7d2bb, 0xeb86d391]

/-- MD5 per-round left-rotate amounts. -/
def md5S : List Nat :=
  [7, 12, 17, 22, 7, 12, 17, 22, 7, 12, 17, 22, 7, 12, 17, 22,
   5, 9, 14, 20, 5, 9, 14, 20, 5, 9, 14, 20, 5, 9, 14, 20,
   4, 11, 16, 23, 4, 11, 16, 23, 4, 11, 16, 23, 4, 11, 16, 23,
   6, 10, 15, 21, 6, 10, 15, 21, 6, 10, 15, 21, 6, 10, 15, 21]

/-- MD5 working state: the four 32-bit registers. -/
structure Md5State where
  a : Nat
  b : Nat
  c : Nat
  d : Nat

/-- Little-endian 32-bit word `i` of a 64-byte block. -/
def leWord (block : Bytes) (i : Nat) : Nat :=
  block.getD (4 * i) 0 + 256 * block.getD (4 * i + 1) 0 +
    65536 * block.getD (4 * i + 2) 0 + 16777216 * block.getD (4 * i + 3) 0

/-- One MD5 round (round index `i`, message words `M`). -/
def md5Round (M : Nat → Nat) (i : Nat) (st : Md5State) : Md5State :=
  let f :=
    if i < 16 then (st.b &&& st.c) ||| (compl32 st.b &&& st.d)
    else if i < 32 then (st.d &&& st.b) ||| (compl32 st.d &&& st.c)
    else if i < 48 then st.b ^^^ st.c ^^^ st.d
    else st.c ^^^ (st.b ||| compl32 st.d)
  let g :=
    if i < 16 then i
    else if i < 32 then (5 * i + 1) % 16
    else if i < 48 then (3 * i + 5) % 16
    else (7 * i) % 16
  let tmp := w32 (st.a + f + md5K.getD i 0 + M g)
  ⟨st.d, w32 (st.b + rotl32 tmp (md5S.getD i 0)), st.b, st.c⟩

/-- Process one 64-byte block. -/
def md5Block (st : Md5State) (block : Bytes) : Md5State :=
  let r := (List.range 64).foldl (fun s i => md5Round (leWord block) i s) st
  ⟨w32 (st.a + r.a), w32 (st.b + r.b), w32 (st.c + r.c), w32 (st.d + r.d)⟩

/-- Process `n` consecutive 64-byte blocks. -/
def md5Blocks : Nat → Bytes → Md5State → Md5State
  | 0, _, st => st
  | n + 1, msg, st => md5Blocks n (msg.drop 64) (md5Block st (msg.take 64))

/-- The 8 little-endian bytes of a 64-bit length field. -/
def le64Bytes (n : Nat) : Bytes := (List.range 8).map fun i => n / 256 ^ i % 256

/-- The 4 little-endian bytes of a 32-bit word. -/
def le32Bytes (n : Nat) : Bytes := (List.range 4).map fun i => n / 256 ^ i % 256

/-- MD5 padding: `0x80`, zeros to 56 mod 64, then the 64-bit bit length. -/
def md5Pad (msg : Bytes) : Bytes :=
  msg ++ [128] ++ List.replicate ((119 - msg.length % 64) % 64) 0 ++
    le64Bytes (8 * msg.length % 2 ^ 64)

/-- 16-byte MD5 digest of a byte string. -/
def md5Digest (msg : Bytes) : Bytes :=
  let padded := md5Pad msg
  let st := md5Blocks (padded.length / 64) padded
    ⟨0x67452301, 0xefcdab89, 0x98badcfe, 0x10325476⟩
  le32Bytes st.a ++ le32Bytes st.b ++ le32Bytes st.c ++ le32Bytes st.d

/-- Lower-case hex character for a value `0..15`. -/
def hexChar (n : Nat) : Char := "0123456789abcdef".toList.getD n '0'

/-- Two hex characters of one byte. -/
def byteHex (b : Nat) : List Char := [hexChar (b / 16), hexChar (b % 16)]

/-- Bytes of an ASCII string (the strings hashed here are all ASCII, where
`str.encode()` in Python is exactly the code points). -/
def strBytes (s : String) : Bytes := s.toList.map Char.toNat

/-- `hashlib.md5(s.encode()).hexdigest()`: lower-case 32-character hex digest. -/
def md5Hex (s : String) : String := String.mk (((md5Digest (strBytes s)).map byteHex).flatten)

/-! ## Fingerprint generator (`server/utils/click_signature.py`)

A click is a dict `{x, y, clickType}` of Python ints; Python's `//` on ints
is floor division, i.e. `Int.fdiv`. -/

/-- One click `{x, y, clickType}`. -/
structure Click where
  x : Int
  y : Int
  clickType : Int
deriving DecidableEq, Repr

/-- Coordinate quantization to the grid-cell center:
`(v // grid_size) * grid_size + grid_size // 2`. -/
def smoothCoord (grid_size v : Int) : Int :=
  v.fdiv grid_size * grid_size + grid_size.fdiv 2

/-- The smoothed click (both coordinates quantized, category kept). -/
def smoothClick (grid_size : Int) (c : Click) : Click :=
  ⟨smoothCoord grid_size c.x, smoothCoord grid_size c.y, c.clickType⟩

/-- Lexicographic comparison on the sort key `(x, y, clickType)`. -/
def clickLe (a b : Click) : Bool :=
  a.x < b.x ∨ (a.x = b.x ∧ (a.y < b.y ∨ (a.y = b.y ∧ a.clickType ≤ b.clickType)))

/-- Insert into a `clickLe`-sorted list (stable position). -/
def insertClick (a : Click) : List Click → List Click
  | [] => [a]
  | b :: rest => if clickLe b a then b :: insertClick a rest else a :: b :: rest

/-- Stable sort by the key `(x, y, clickType)`, as `list.sort(key=...)`. -/
def sortClicks : List Click → List Click
  | [] => []
  | a :: rest => insertClick a (sortClicks rest)

/-- `f"{c['x']},{c['y']},{c['clickType']}"` (Python `str` of an int and
`toString : Int → String` agree: decimal, `-` sign for negatives). -/
def clickField (c : Click) : String :=
  toString c.x ++ "," ++ toString c.y ++ "," ++ toString c.clickType

/-- The string hashed by the short signature: smoothed clicks, sorted, joined
with `"_"`. -/
def clickStr (clicks : List Click) (grid_size : Int) : String :=
  String.intercalate "_" ((sortClicks (clicks.map (smoothClick grid_size))).map clickField)

/-- The string hashed by the full signature: smoothed clicks, sorted, each
followed by `";"`. -/
def clickStrFull (clicks : List Click) (grid_size : Int) : String :=
  String.join ((sortClicks (clicks.map (smoothClick grid_size))).map
    fun c => clickField c ++ ";")

/-- `generate_click_signature(clicks, grid_size)`: 16-character truncated MD5
(`hexdigest()[:16]`; the empty click list hashes the empty string). -/
def generate_click_signature (clicks : List Click) (grid_size : Int) : String :=
  if clicks = [] then (md5Hex "").take 16
  else (md5Hex (clickStr clicks grid_size)).take 16

/-- `generate_click_signature_full(clicks, grid_size)`: full 32-character MD5
of the semicolon-terminated string. -/
def generate_click_signature_full (clicks : List Click) (grid_size : Int) : String :=
  if clicks = [] then md5Hex ""
  else md5Hex (clickStrFull clicks grid_size)

/-- Pointwise comparison of two click sequences: same length, and
corresponding clicks fall in the same grid cell (`//` being the
quantization step) with the same category. -/
def sameCells (grid_size : Int) : List Click → List Click → Bool
  | [], [] => true
  | a :: as, b :: bs =>
    decide (a.x.fdiv grid_size = b.x.fdiv grid_size) &&
      decide (a.y.fdiv grid_size = b.y.fdiv grid_size) &&
      decide (a.clickType = b.clickType) && sameCells grid_size as bs
  | _, _ => false

/-! ## Process-local embedding cache (`server/embedding_cache.py`)

A `torch.Tensor` embedding is modelled by its element count (`numel`), which
is all `_estimate_embedding_size` reads (the entry may hold `None`). The
`OrderedDict` is a key-entry list in insertion/recency order (head = oldest);
plain assignment to an existing key keeps its position, `move_to_end`
reinserts at the tail. Wall-clock timestamps are passed in as `now`.
The `stats` counters and the `metadata` argument are pure observability and
are not modelled. Byte counts are `Int` (Python ints). -/

/-- One cache entry (the dict built in `EmbeddingCache.put`). -/
structure CacheEntry where
  embedding : Option Nat
  size : Int
  created_at : Nat
  last_accessed : Nat
  access_count : Nat
deriving DecidableEq, Repr

/-- `_estimate_embedding_size`: `0` for `None`, else `numel * 4` bytes. -/
def estimate_embedding_size : Option Nat → Int
  | none => 0
  | some numel => numel * 4

/-- The cache state (`OrderedDict` plus the running byte count and limits). -/
structure EmbeddingCache where
  max_cache_size : Nat
  max_memory_bytes : Int
  cache : List (String × CacheEntry)
  current_memory_bytes : Int
deriving DecidableEq, Repr

/-- `EmbeddingCache.__init__(max_cache_size, max_memory_mb)`. -/
def EmbeddingCache.init (max_cache_size : Nat) (max_memory_mb : Int) : EmbeddingCache :=
  ⟨max_cache_size, max_memory_mb * 1024 * 1024, [], 0⟩

/-- First entry stored under a key (`OrderedDict` keys are unique, so first =
only). -/
def lookupEntry : List (String × CacheEntry) → String → Option CacheEntry
  | [], _ => none
  | (k', e) :: rest, k => if k' = k then some e else lookupEntry rest k

/-- Dict assignment `cache[k] = e`: replace in place if present, else append. -/
def setEntry : List (String × CacheEntry) → String → CacheEntry → List (String × CacheEntry)
  | [], k, e => [(k, e)]
  | (k', e') :: rest, k, e =>
    if k' = k then (k', e) :: rest else (k', e') :: setEntry rest k e

/-- `cache.pop(k)` / `del cache[k]`: drop the first entry with the key. -/
def eraseEntry : List (String × CacheEntry) → String → List (String × CacheEntry)
  | [], _ => []
  | (k', e) :: rest, k => if k' = k then rest else (k', e) :: eraseEntry rest k

/-- The `while` loop of `_evict_if_needed`: while the entry count is at the
limit or the new size would exceed the budget, pop the head (oldest) entry
and subtract its estimated size; stop (`break`, with a warning in the
source) when the cache is empty. -/
def evictLoop (max_cache_size : Nat) (max_memory_bytes new_size : Int) :
    List (String × CacheEntry) → Int → List (String × CacheEntry) × Int
  | [], cur => ([], cur)
  | (k, e) :: rest, cur =>
    if rest.length + 1 ≥ max_cache_size ∨ cur + new_size > max_memory_bytes then
      evictLoop max_cache_size max_memory_bytes new_size rest
        (cur - estimate_embedding_size e.embedding)
    else ((k, e) :: rest, cur)

/-- `_evict_if_needed(new_embedding_size)` applied to a cache state. -/
def EmbeddingCache.evict_if_needed (c : EmbeddingCache) (new_size : Int) : EmbeddingCache :=
  let (l, cur) := evictLoop c.max_cache_size c.max_memory_bytes new_size
    c.cache c.current_memory_bytes
  { c with cache := l, current_memory_bytes := cur }

/-- `EmbeddingCache.put(image_path, embedding)`: evict if needed, then store
the new entry unconditionally and add its size to the running total (the
size of an entry being replaced is not subtracted). -/
def EmbeddingCache.put (c : EmbeddingCache) (now : Nat) (image_path : String)
    (embedding : Option Nat) : EmbeddingCache :=
  let embedding_size := estimate_embedding_size embedding
  let c := c.evict_if_needed embedding_size
  let entry : CacheEntry := ⟨embedding, embedding_size, now, now, 0⟩
  { c with cache := setEntry c.cache image_path entry,
           current_memory_bytes := c.current_memory_bytes + embedding_size }

/-- `EmbeddingCache.get(image_path)`: on a hit, refresh `last_accessed`,
bump `access_count`, move the entry to the most-recently-used tail and
return the embedding; on a miss return `None`. -/
def EmbeddingCache.get (c : EmbeddingCache) (now : Nat) (image_path : String) :
    Option (Option Nat) × EmbeddingCache :=
  match lookupEntry c.cache image_path with
  | some e =>
    let e' := { e with last_accessed := now, access_count := e.access_count + 1 }
    (some e.embedding, { c with cache := eraseEntry c.cache image_path ++ [(image_path, e')] })
  | none => (none, c)

/-- `EmbeddingCache.remove(image_path)`. -/
def EmbeddingCache.remove (c : EmbeddingCache) (image_path : String) : EmbeddingCache :=
  match lookupEntry c.cache image_path with
  | some e =>
    { c with cache := eraseEntry c.cache image_path,
             current_memory_bytes := c.current_memory_bytes - e.size }
  | none => c

/-- `EmbeddingCache.clear()`. -/
def EmbeddingCache.clear (c : EmbeddingCache) : EmbeddingCache :=
  { c with cache := [], current_memory_bytes := 0 }

/-- One mutating cache operation (the value returned by `get` is dropped). -/
inductive CacheOp where
  | put (now : Nat) (image_path : String) (embedding : Option Nat)
  | get (now : Nat) (image_path : String)
  | remove (image_path : String)
  | clear
deriving DecidableEq, Repr

/-- Apply one operation. -/
def applyOp (c : EmbeddingCache) : CacheOp → EmbeddingCache
  | .put now k e => c.put now k e
  | .get now k => (c.get now k).2
  | .remove k => c.remove k
  | .clear => c.clear

/-- Run a sequence of operations from a state. -/
def runOps (c : EmbeddingCache) (ops : List CacheOp) : EmbeddingCache :=
  ops.foldl applyOp c

/-- An operation whose inserted entry (if any) fits the memory budget by
itself. -/
def opWithinBudget (max_memory_bytes : Int) : CacheOp → Bool
  | .put _ _ embedding => decide (estimate_embedding_size embedding ≤ max_memory_bytes)
  | _ => true

/-- Sum of the byte-size estimates stored in the cache entries. -/
def sumSizes (l : List (String × CacheEntry)) : Int :=
  (l.map fun p => p.2.size).sum

/-- A stored entry's `size` field is the estimate of its embedding (true of
every entry `put` builds). -/
def EntryWF (p : String × CacheEntry) : Prop :=
  p.2.size = estimate_embedding_size p.2.embedding

/-- The state invariant of the embedding cache: entries are well-formed,
the byte counter dominates the sum of entry sizes (it can overcount on
duplicate-key puts, never undercount), the sum respects the budget, and
the budget is non-negative. -/
def CacheInv (c : EmbeddingCache) : Prop :=
  (∀ p ∈ c.cache, EntryWF p) ∧
    sumSizes c.cache ≤ c.current_memory_bytes ∧
    sumSizes c.cache ≤ c.max_memory_bytes ∧
    0 ≤ c.max_memory_bytes

/-! ## Distributed cache (`server/redis_cache.py`)

The Redis backend is a key-value store; expiry of a TTL is modelled as the
key being absent, so the TTL arguments are threaded but not stored. A stored
value is either plain bytes or the JSON `chunk_info` manifest written by
`_split_large_data` (the `json.dumps`/`json.loads` round trip is modelled by
storing the manifest structurally; reading a manifest where bytes are
expected, or bytes where a manifest is expected, fails the surrounding
`try` block in the source and is modelled as a failed read).

`pickle` is factored out: the functions below operate on the serialized
byte string `s = pickle.dumps(obj)`; since `pickle.loads(pickle.dumps(obj))
== obj`, `decode(encode(v)) = v` is exactly recovering `s`. `gzip` is an
external pair `compress`/`decompress` passed as parameters, used only under
the hypothesis `decompress (compress s) = s` that the library guarantees. -/

/-- `RedisCache.MAX_VALUE_SIZE = 512 * 1024`. -/
def MAX_VALUE_SIZE : Nat := 512 * 1024

/-- `RedisCache.COMPRESSION_THRESHOLD = 100 * 1024`. -/
def COMPRESSION_THRESHOLD : Nat := 100 * 1024

/-- `RedisCache.LOGIT_CHUNK_SIZE = 64 * 1024`. -/
def LOGIT_CHUNK_SIZE : Nat := 64 * 1024

/-- A value stored under one Redis key. -/
inductive RVal where
  | raw (b : Bytes)
  | manifest (num_chunks : Nat) (total_size : Nat) (created_at : Nat)
deriving DecidableEq, Repr

/-- The backend state: one live value per key (head shadows nothing because
`rsetex` erases the key first). -/
abbrev RedisDB := List (String × RVal)

/-- `redis_client.get(k)` (`None` when the key is absent or expired). -/
def rget : RedisDB → String → Option RVal
  | [], _ => none
  | (k', v) :: rest, k => if k' = k then some v else rget rest k

/-- `redis_client.delete(k)`: remove the key from the store. -/
def rdelete : RedisDB → String → RedisDB
  | [], _ => []
  | (k', v) :: rest, k => if k' = k then rdelete rest k else (k', v) :: rdelete rest k

/-- `redis_client.setex(k, ttl, v)` (the TTL itself is not part of the
modelled state). -/
def rsetex (db : RedisDB) (k : String) (v : RVal) (_ttl : Nat) : RedisDB :=
  (k, v) :: rdelete db k

/-- `redis_client.exists(k)`. -/
def rexists (db : RedisDB) (k : String) : Bool :=
  (rget db k).isSome

/-- `redis_client.get(k)` in a context that uses the result as bytes. -/
def rgetBytes (db : RedisDB) (k : String) : Option Bytes :=
  match rget db k with
  | some (.raw b) => some b
  | _ => none

/-- Python truthiness of an optional byte string (`if not data:` treats
empty bytes like `None`). -/
def truthy : Option Bytes → Option Bytes
  | some [] => none
  | x => x

/-- `b'GZIP:'`. -/
def gzipTag : Bytes := [71, 90, 73, 80, 58]

/-- `b'PICKLE:'`. -/
def pickleTag : Bytes := [80, 73, 67, 75, 76, 69, 58]

/-- `_serialize_with_compression` on the pickled payload `s`: over the
100 KiB threshold try `compress`, keep it only if strictly smaller, and
frame the result with the `GZIP:`/`PICKLE:` tag. -/
def serialize_with_compression (compress : Bytes → Bytes) (s : Bytes) : Bytes :=
  if s.length > COMPRESSION_THRESHOLD then
    if (compress s).length < s.length then gzipTag ++ compress s else pickleTag ++ s
  else pickleTag ++ s

/-- `_deserialize_with_compression`: dispatch on the tag; untagged legacy
data is the payload itself. -/
def deserialize_with_compression (decompress : Bytes → Bytes) (d : Bytes) : Bytes :=
  if gzipTag.isPrefixOf d then decompress (d.drop 5)
  else if pickleTag.isPrefixOf d then d.drop 7
  else d

/-- Decimal digits of `str(i)` for a Python int `i ≥ 0`. -/
def natChars (n : Nat) : List Char :=
  if n = 0 then ['0'] else ((Nat.digits 10 n).reverse.map Nat.digitChar)

/-- `str(i)` for a chunk index. -/
def natStr (n : Nat) : String := String.mk (natChars n)

/-- `f"{key}:info"`. -/
def infoKey (key : String) : String := key ++ ":info"

/-- `f"{key}:chunk:{i}"`. -/
def chunkKey (key : String) (i : Nat) : String := key ++ ":chunk:" ++ natStr i

/-- The `i`-th 64 KiB chunk `data[start:end]` of `_split_large_data`. -/
def chunkSlice (data : Bytes) (i : Nat) : Bytes :=
  (data.drop (i * LOGIT_CHUNK_SIZE)).take LOGIT_CHUNK_SIZE

/-- `num_chunks = (data_size + LOGIT_CHUNK_SIZE - 1) // LOGIT_CHUNK_SIZE`. -/
def numChunks (data_size : Nat) : Nat :=
  (data_size + LOGIT_CHUNK_SIZE - 1) / LOGIT_CHUNK_SIZE

/-- `_split_large_data(key, data, ttl)`: `False` (no store) when the framed
payload fits in one value, else store the manifest under `key:info` and each
chunk under `key:chunk:{i}` and return `True`. The `for i in
range(num_chunks)` store loop is the fold `storeChunks`. -/
def storeChunks (key : String) (data : Bytes) (ttl n : Nat) (db : RedisDB) : RedisDB :=
  (List.range n).foldl
    (fun d i => rsetex d (chunkKey key i) (.raw (chunkSlice data i)) ttl) db

/-- `_split_large_data(key, data, ttl)`: `False` (no store) when the framed
payload fits in one value, else store the manifest under `key:info` and each
chunk under `key:chunk:{i}` and return `True`. -/
def split_large_data (key : String) (data : Bytes) (ttl now : Nat) (db : RedisDB) :
    Bool × RedisDB :=
  if data.length ≤ MAX_VALUE_SIZE then (false, db)
  else
    let n := numChunks data.length
    let db1 := rsetex db (infoKey key) (.manifest n data.length now) ttl
    (true, storeChunks key data ttl n db1)

/-- The chunk-collection loop of `_get_large_data`: fetch `count` chunks
starting at index `start`, failing if any is absent or empty. -/
def collectChunks (db : RedisDB) (key : String) : Nat → Nat → Option Bytes
  | 0, _ => some []
  | count + 1, start =>
    match rgetBytes db (chunkKey key start) with
    | none => none
    | some b =>
      if b = [] then none
      else
        match collectChunks db key count (start + 1) with
        | none => none
        | some rest => some (b ++ rest)

/-- `_get_large_data(key)`: read the manifest, then all chunks in index
order; any missing chunk fails the whole read. -/
def get_large_data (db : RedisDB) (key : String) : Option Bytes :=
  match rget db (infoKey key) with
  | some (.manifest n _ _) => collectChunks db key n 0
  | _ => none

/-- `sam:logit:{image_hash}:{click_signature}` (the `_get_image_hash` value,
an MD5 over `os.stat` data of the image file, is passed in opaquely). -/
def logitKey (image_hash click_signature : String) : String :=
  "sam:logit:" ++ image_hash ++ ":" ++ click_signature

/-- `set_sam_logit`: serialize with compression, chunk if the framed payload
exceeds `MAX_VALUE_SIZE` (falling back to normal storage if chunking
declined), else store under the plain key. -/
def set_sam_logit (compress : Bytes → Bytes) (image_hash click_signature : String)
    (s : Bytes) (ttl now : Nat) (db : RedisDB) : RedisDB :=
  let cache_key := logitKey image_hash click_signature
  let d := serialize_with_compression compress s
  if d.length > MAX_VALUE_SIZE then
    let r := split_large_data cache_key d ttl now db
    if r.1 then r.2 else rsetex r.2 cache_key (.raw d) ttl
  else rsetex db cache_key (.raw d) ttl

/-- `get_sam_logit`: try the chunked read first, fall back to the plain key,
then run the framed decode. -/
def get_sam_logit (decompress : Bytes → Bytes) (image_hash click_signature : String)
    (db : RedisDB) : Option Bytes :=
  let cache_key := logitKey image_hash click_signature
  let cached := truthy (get_large_data db cache_key)
  let cached := match cached with
    | none => truthy (rgetBytes db cache_key)
    | some d => some d
  match cached with
  | some d => some (deserialize_with_compression decompress d)
  | none => none

/-- One iteration of the `cleanup_expired_chunks` loop over a manifest key
`k`: only when `k` does **not** exist (`if not self.redis_client.exists`),
read its manifest (`json.loads` of a non-manifest value raises, aborting via
the enclosing `except`, modelled as a no-op) and delete the chunk keys it
names (`info_key[:-5]` strips the `":info"` suffix). -/
def cleanupStep (d : RedisDB) (k : String) : RedisDB :=
  if rexists d k then d
  else
    match rget d k with
    | some (.manifest n _ _) =>
      (List.range n).foldl (fun d' i => rdelete d' (k.dropRight 5 ++ ":chunk:" ++ natStr i)) d
    | _ => d

/-- `cleanup_expired_chunks()`: list the manifest keys (`KEYS "*:info"`,
which returns live keys, possibly with model-level duplicates that Redis
would deduplicate — each extra pass is a no-op), and run `cleanupStep` on
each. -/
def cleanup_expired_chunks (db : RedisDB) : RedisDB :=
  ((db.map fun p => p.1).filter fun k => k.endsWith ":info").foldl cleanupStep db

/-- `sam:embedding:{image_hash}`. -/
def embeddingKey (image_hash : String) : String := "sam:embedding:" ++ image_hash

/-- Outcome of one call into an external collaborator: a value, or a raised
exception that the caller's `try`/`except` will catch. -/
inductive BResult (α : Type) where
  | ok (a : α)
  | exn
deriving DecidableEq, Repr

/-- `get_sam_embedding(image_path)` with explicit failure injection:
`hashR` is the `_get_image_hash` call (`os.stat` can raise), `fetch` the
backend `get`. Any exception is caught and logged and the call returns
`None`. -/
def get_sam_embedding (hashR : BResult String) (fetch : String → BResult (Option Bytes))
    (decompress : Bytes → Bytes) : Option Bytes :=
  match hashR with
  | .exn => none
  | .ok image_hash =>
    match fetch (embeddingKey image_hash) with
    | .exn => none
    | .ok none => none
    | .ok (some d) => some (deserialize_with_compression decompress d)

/-- `set_sam_embedding(image_path, data, ttl)` with explicit failure
injection: on any exception the state is left unchanged (no-op set). -/
def set_sam_embedding (hashR : BResult String) (setexFails : Bool)
    (compress : Bytes → Bytes) (s : Bytes) (ttl : Nat) (db : RedisDB) : RedisDB :=
  match hashR with
  | .exn => db
  | .ok image_hash =>
    if setexFails then db
    else rsetex db (embeddingKey image_hash) (.raw (serialize_with_compression compress s)) ttl

/-! ## Broker manager retry/dead-letter path (`services/rocketmq_integration.py`)

Model of `_handle_message`/`_retry_message`/`_send_to_dlq` for a handler
that raises on every delivery. Only the fields the retry path reads are
carried; the re-published body is the mutated dataclass (`retry_count`
incremented before `_retry_message` serializes it), and the dead-letter
publish copies the body of the message as delivered. -/

/-- The retry-relevant part of a `SegmentMessage`. -/
structure SegmentMessage where
  message_id : String
  max_retries : Nat
  retry_count : Nat
deriving DecidableEq, Repr

/-- What one delivery to an always-raising handler does: either schedule a
retry (the re-published message and the `time.sleep` delay before
`send_message`, `min(300, 10 * 2 ** retry_count)` computed **after** the
increment), or publish once to the dead-letter topic (carrying the
delivered body's `retry_count`). -/
def handle_failing_delivery (m : SegmentMessage) :
    SegmentMessage × Nat ⊕ Nat :=
  if m.retry_count < m.max_retries then
    let m' := { m with retry_count := m.retry_count + 1 }
    .inl (m', min 300 (10 * 2 ^ m'.retry_count))
  else .inr m.retry_count

/-- Deliver the message repeatedly (each retry is redelivered and fails
again), collecting the sleep delays of the retry publishes and the
`retry_count` values of the dead-letter publishes. `fuel` bounds the number
of deliveries; any `fuel > max_retries - retry_count` reaches the
dead-letter. -/
def run_failing : Nat → SegmentMessage → List Nat × List Nat
  | 0, _ => ([], [])
  | fuel + 1, m =>
    match handle_failing_delivery m with
    | .inl (m', d) =>
      let r := run_failing fuel m'
      (d :: r.1, r.2)
    | .inr rc => ([], [rc])

/-! ## Helper lemmas -/

/-- With enough fuel, a message whose handler always raises is retried once
per remaining retry budget, with delay `min(300, 10·2^k)` computed on the
already-incremented count, and is dead-lettered exactly once carrying
`max_retries`. -/
lemma run_failing_eq (fuel : Nat) : ∀ m : SegmentMessage,
    m.retry_count ≤ m.max_retries → m.max_retries - m.retry_count < fuel →
    run_failing fuel m =
      ((List.range (m.max_retries - m.retry_count)).map
        (fun k => min 300 (10 * 2 ^ (m.retry_count + k + 1))), [m.max_retries]) := by
  induction fuel with
  | zero => intro m _ h2; omega
  | succ fuel ih =>
    intro m h1 h2
    by_cases hlt : m.retry_count < m.max_retries
    · have hrec := ih { m with retry_count := m.retry_count + 1 } (by simp; omega) (by simp; omega)
      simp only [run_failing, handle_failing_delivery, if_pos hlt, hrec]
      have hn : m.max_retries - m.retry_count = (m.max_retries - (m.retry_count + 1)) + 1 := by
        omega
      rw [hn, List.range_succ_eq_map, List.map_cons, List.map_map]
      simp only [Prod.mk.injEq, List.cons.injEq]
      refine ⟨⟨by simp, ?_⟩, trivial⟩
      apply List.map_congr_left
      intro k _
      simp only [Function.comp_apply, Nat.succ_eq_add_one]
      have h3 : m.retry_count + (k + 1) + 1 = m.retry_count + 1 + k + 1 := by omega
      rw [h3]
    · have heq : m.max_retries - m.retry_count = 0 := by omega
      simp [run_failing, handle_failing_delivery, hlt, heq]
      omega

/-- `cleanupStep` is the identity on every key that currently exists. -/
lemma cleanupStep_of_exists (d : RedisDB) (k : String) (h : rexists d k = true) :
    cleanupStep d k = d := by
  simp [cleanupStep, h]

/-- A key listed by the model's `KEYS` scan exists. -/
lemma rget_isSome_of_mem (db : RedisDB) (k : String)
    (h : k ∈ db.map fun p => p.1) : rexists db k = true := by
  induction db with
  | nil => simp at h
  | cons p rest ih =>
    by_cases hk : p.1 = k
    · simp [rexists, rget, hk]
    · simp only [List.map_cons, List.mem_cons] at h
      rcases h with h | h
      · exact absurd h.symm hk
      · simpa [rexists, rget, hk] using ih h

/-- Folding `cleanupStep` over live keys changes nothing. -/
lemma foldl_cleanupStep_noop : ∀ (l : List String) (db : RedisDB),
    (∀ k ∈ l, rexists db k = true) → l.foldl cleanupStep db = db := by
  intro l
  induction l with
  | nil => intro db _; rfl
  | cons k rest ih =>
    intro db h
    have hk := h k (List.mem_cons_self k rest)
    rw [List.foldl_cons, cleanupStep_of_exists db k hk]
    exact ih db fun k' hk' => h k' (List.mem_cons_of_mem k hk')

/-- `cleanup_expired_chunks` never changes the store: every key returned by
the `KEYS "*:info"` scan exists, so the `if not exists` guard always
skips. -/
lemma cleanup_expired_chunks_eq_self (db : RedisDB) :
    cleanup_expired_chunks db = db := by
  unfold cleanup_expired_chunks
  apply foldl_cleanupStep_noop
  intro k hk
  exact rget_isSome_of_mem db k (List.mem_of_mem_filter hk)

/-- Pointwise same-cell clicks smooth to equal click lists. -/
lemma smooth_eq_of_sameCells (g : Int) : ∀ cs1 cs2 : List Click,
    sameCells g cs1 cs2 = true →
    cs1.map (smoothClick g) = cs2.map (smoothClick g) := by
  intro cs1
  induction cs1 with
  | nil =>
    intro cs2 h
    cases cs2 with
    | nil => rfl
    | cons b bs => simp [sameCells] at h
  | cons a as ih =>
    intro cs2 h
    cases cs2 with
    | nil => simp [sameCells] at h
    | cons b bs =>
      simp only [sameCells, Bool.and_eq_true, decide_eq_true_eq] at h
      obtain ⟨⟨⟨hx, hy⟩, hc⟩, hrest⟩ := h
      simp only [List.map_cons]
      rw [ih bs hrest]
      congr 1
      simp [smoothClick, smoothCoord, hx, hy, hc]

/-- Helper for C10: `evictLoop` does nothing when the cache is under both
limits. -/
lemma evictLoop_no_evict (maxN : Nat) (maxB ns : Int)
    (l : List (String × CacheEntry)) (cur : Int)
    (h1 : l.length < maxN) (h2 : cur + ns ≤ maxB) :
    evictLoop maxN maxB ns l cur = (l, cur) := by
  cases l with
  | nil => rfl
  | cons p rest =>
    rw [evictLoop, if_neg]
    push_neg
    simp only [List.length_cons] at h1
    exact ⟨by omega, by omega⟩

/-- `sumSizes` over a cons. -/
lemma sumSizes_cons (p : String × CacheEntry) (l : List (String × CacheEntry)) :
    sumSizes (p :: l) = p.2.size + sumSizes l := by
  simp [sumSizes]

/-- Dict assignment to an existing key replaces exactly its size in the
sum. -/
lemma sumSizes_setEntry_some : ∀ (l : List (String × CacheEntry)) (k : String)
    (e e_old : CacheEntry), lookupEntry l k = some e_old →
    sumSizes (setEntry l k e) = sumSizes l - e_old.size + e.size := by
  intro l
  induction l with
  | nil => intro k e e_old h; simp [lookupEntry] at h
  | cons p rest ih =>
    intro k e e_old h
    by_cases hk : p.1 = k
    · simp only [lookupEntry, if_pos hk, Option.some.injEq] at h
      subst h
      simp only [setEntry, if_pos hk, sumSizes_cons]
      ring
    · simp only [lookupEntry, if_neg hk] at h
      simp only [setEntry, if_neg hk, sumSizes_cons, ih k e e_old h]
      ring

/-- Dict assignment to an existing key keeps the entry count. -/
lemma length_setEntry_some : ∀ (l : List (String × CacheEntry)) (k : String)
    (e : CacheEntry), (lookupEntry l k).isSome →
    (setEntry l k e).length = l.length := by
  intro l
  induction l with
  | nil => intro k e h; simp [lookupEntry] at h
  | cons p rest ih =>
    intro k e h
    by_cases hk : p.1 = k
    · simp [setEntry, if_pos hk]
    · simp only [lookupEntry, if_neg hk] at h
      simp [setEntry, if_neg hk, ih k e h]

/-- Looking up the key just assigned. -/
lemma lookupEntry_setEntry_self : ∀ (l : List (String × CacheEntry)) (k : String)
    (e : CacheEntry), lookupEntry (setEntry l k e) k = some e := by
  intro l
  induction l with
  | nil => intro k e; simp [setEntry, lookupEntry]
  | cons p rest ih =>
    intro k e
    by_cases hk : p.1 = k
    · simp [setEntry, if_pos hk, lookupEntry]
    · simp [setEntry, if_neg hk, lookupEntry, ih]

/-- Size estimates are non-negative. -/
lemma estimate_nonneg (e : Option Nat) : 0 ≤ estimate_embedding_size e := by
  cases e with
  | none => simp [estimate_embedding_size]
  | some n => simp [estimate_embedding_size]

/-- A looked-up entry of a well-formed cache is well-formed. -/
lemma wf_of_lookup : ∀ (l : List (String × CacheEntry)) (k : String) (e : CacheEntry),
    (∀ p ∈ l, EntryWF p) → lookupEntry l k = some e →
    e.size = estimate_embedding_size e.embedding := by
  intro l
  induction l with
  | nil => intro k e _ h; simp [lookupEntry] at h
  | cons p rest ih =>
    intro k e hwf h
    by_cases hk : p.1 = k
    · simp only [lookupEntry, if_pos hk, Option.some.injEq] at h
      subst h
      exact hwf p (List.mem_cons_self p rest)
    · simp only [lookupEntry, if_neg hk] at h
      exact ih k e (fun q hq => hwf q (List.mem_cons_of_mem p hq)) h

/-- `setEntry` preserves well-formedness. -/
lemma wf_setEntry : ∀ (l : List (String × CacheEntry)) (k : String) (e : CacheEntry),
    (∀ p ∈ l, EntryWF p) → EntryWF (k, e) →
    ∀ p ∈ setEntry l k e, EntryWF p := by
  intro l
  induction l with
  | nil => intro k e _ he p hp; simp [setEntry] at hp; subst hp; exact he
  | cons q rest ih =>
    intro k e hwf he p hp
    by_cases hk : q.1 = k
    · simp only [setEntry, if_pos hk, List.mem_cons] at hp
      rcases hp with hp | hp
      · subst hp; exact he
      · exact hwf p (List.mem_cons_of_mem q hp)
    · simp only [setEntry, if_neg hk, List.mem_cons] at hp
      rcases hp with hp | hp
      · rw [hp]; exact hwf q (List.mem_cons_self q rest)
      · exact ih k e (fun r hr => hwf r (List.mem_cons_of_mem q hr)) he p hp

/-- Dict assignment to an absent key appends its size to the sum. -/
lemma sumSizes_setEntry_none : ∀ (l : List (String × CacheEntry)) (k : String)
    (e : CacheEntry), lookupEntry l k = none →
    sumSizes (setEntry l k e) = sumSizes l + e.size := by
  intro l
  induction l with
  | nil => intro k e _; simp [setEntry, sumSizes]
  | cons p rest ih =>
    intro k e h
    by_cases hk : p.1 = k
    · simp [lookupEntry, if_pos hk] at h
    · simp only [lookupEntry, if_neg hk] at h
      simp only [setEntry, if_neg hk, sumSizes_cons, ih k e h]
      ring

/-- Erasing a present key removes its size from the sum. -/
lemma sumSizes_eraseEntry_some : ∀ (l : List (String × CacheEntry)) (k : String)
    (e : CacheEntry), lookupEntry l k = some e →
    sumSizes (eraseEntry l k) = sumSizes l - e.size := by
  intro l
  induction l with
  | nil => intro k e h; simp [lookupEntry] at h
  | cons p rest ih =>
    intro k e h
    by_cases hk : p.1 = k
    · simp only [lookupEntry, if_pos hk, Option.some.injEq] at h
      subst h
      simp only [eraseEntry, if_pos hk, sumSizes_cons]
      ring
    · simp only [lookupEntry, if_neg hk] at h
      simp only [eraseEntry, if_neg hk, sumSizes_cons, ih k e h]
      ring

/-- Erasing preserves well-formedness. -/
lemma wf_eraseEntry : ∀ (l : List (String × CacheEntry)) (k : String),
    (∀ p ∈ l, EntryWF p) → ∀ p ∈ eraseEntry l k, EntryWF p := by
  intro l
  induction l with
  | nil => intro k _ p hp; simp [eraseEntry] at hp
  | cons q rest ih =>
    intro k hwf p hp
    by_cases hk : q.1 = k
    · simp only [eraseEntry, if_pos hk] at hp
      exact hwf p (List.mem_cons_of_mem q hp)
    · simp only [eraseEntry, if_neg hk, List.mem_cons] at hp
      rcases hp with hp | hp
      · rw [hp]; exact hwf q (List.mem_cons_self q rest)
      · exact ih k (fun r hr => hwf r (List.mem_cons_of_mem q hr)) p hp

/-- Sum over an append. -/
lemma sumSizes_append (l1 l2 : List (String × CacheEntry)) :
    sumSizes (l1 ++ l2) = sumSizes l1 + sumSizes l2 := by
  simp [sumSizes]

/-- The eviction loop preserves well-formedness and counter domination, and
on exit either emptied the cache or left both limits satisfiable. -/
lemma evictLoop_inv (maxN : Nat) (maxB ns : Int) :
    ∀ (l : List (String × CacheEntry)) (cur : Int),
    (∀ p ∈ l, EntryWF p) → sumSizes l ≤ cur →
    (∀ p ∈ (evictLoop maxN maxB ns l cur).1, EntryWF p) ∧
    sumSizes (evictLoop maxN maxB ns l cur).1 ≤ (evictLoop maxN maxB ns l cur).2 ∧
    ((evictLoop maxN maxB ns l cur).1 = [] ∨
      ((evictLoop maxN maxB ns l cur).1.length < maxN ∧
        (evictLoop maxN maxB ns l cur).2 + ns ≤ maxB)) := by
  intro l
  induction l with
  | nil =>
    intro cur hwf hsum
    exact ⟨hwf, hsum, Or.inl rfl⟩
  | cons p rest ih =>
    intro cur hwf hsum
    obtain ⟨k, e⟩ := p
    rw [evictLoop]
    by_cases hc : rest.length + 1 ≥ maxN ∨ cur + ns > maxB
    · rw [if_pos hc]
      apply ih
      · intro q hq
        exact hwf q (List.mem_cons_of_mem _ hq)
      · have hp : e.size = estimate_embedding_size e.embedding :=
          hwf (k, e) (List.mem_cons_self _ rest)
        have hsum' : e.size + sumSizes rest ≤ cur := by
          simpa [sumSizes_cons] using hsum
        rw [← hp]
        omega
    · rw [if_neg hc]
      push_neg at hc
      refine ⟨hwf, hsum, Or.inr ⟨?_, ?_⟩⟩
      · simp only [List.length_cons]
        omega
      · omega

/-- `put` with an entry that fits the budget by itself preserves the
invariant. -/
lemma inv_put (c : EmbeddingCache) (now : Nat) (k : String) (embedding : Option Nat)
    (hinv : CacheInv c)
    (hsize : estimate_embedding_size embedding ≤ c.max_memory_bytes) :
    CacheInv (c.put now k embedding) := by
  obtain ⟨hwf, hsum, _, hpos⟩ := hinv
  have hr := evictLoop_inv c.max_cache_size c.max_memory_bytes
    (estimate_embedding_size embedding) c.cache c.current_memory_bytes hwf hsum
  obtain ⟨hwf', hsum', hpost⟩ := hr
  have hlit : (⟨embedding, estimate_embedding_size embedding, now, now, 0⟩ :
      CacheEntry).size = estimate_embedding_size embedding := rfl
  simp only [EmbeddingCache.put, EmbeddingCache.evict_if_needed, CacheInv]
  refine ⟨?_, ?_, ?_, hpos⟩
  · exact wf_setEntry _ k _ hwf' rfl
  · cases hl : lookupEntry (evictLoop c.max_cache_size c.max_memory_bytes
        (estimate_embedding_size embedding) c.cache c.current_memory_bytes).1 k with
    | some e_old =>
      rw [sumSizes_setEntry_some _ k _ e_old hl, hlit]
      have hnn : 0 ≤ e_old.size := by
        rw [wf_of_lookup _ k e_old hwf' hl]
        exact estimate_nonneg _
      omega
    | none =>
      rw [sumSizes_setEntry_none _ k _ hl, hlit]
      omega
  · cases hl : lookupEntry (evictLoop c.max_cache_size c.max_memory_bytes
        (estimate_embedding_size embedding) c.cache c.current_memory_bytes).1 k with
    | some e_old =>
      rw [sumSizes_setEntry_some _ k _ e_old hl, hlit]
      have hnn : 0 ≤ e_old.size := by
        rw [wf_of_lookup _ k e_old hwf' hl]
        exact estimate_nonneg _
      rcases hpost with hemp | ⟨_, hfit⟩
      · rw [hemp] at hl
        simp [lookupEntry] at hl
      · omega
    | none =>
      rw [sumSizes_setEntry_none _ k _ hl, hlit]
      rcases hpost with hemp | ⟨_, hfit⟩
      · rw [hemp]
        rw [hemp] at hsum'
        simp only [sumSizes, List.map_nil, List.sum_nil] at hsum' ⊢
        omega
      · omega

/-- `get` preserves the invariant (a hit reorders and retouches an entry
without changing sizes). -/
lemma inv_get (c : EmbeddingCache) (now : Nat) (k : String) (hinv : CacheInv c) :
    CacheInv (c.get now k).2 := by
  obtain ⟨hwf, hsum, hbud, hpos⟩ := hinv
  cases hl : lookupEntry c.cache k with
  | none =>
    have hg : (c.get now k).2 = c := by
      unfold EmbeddingCache.get
      rw [hl]
    rw [hg]
    exact ⟨hwf, hsum, hbud, hpos⟩
  | some e =>
    have hg : (c.get now k).2 = { c with
        cache := eraseEntry c.cache k ++
          [(k, { e with last_accessed := now, access_count := e.access_count + 1 })] } := by
      unfold EmbeddingCache.get
      rw [hl]
    have hsum2 : sumSizes (eraseEntry c.cache k ++
        [(k, { e with last_accessed := now, access_count := e.access_count + 1 })]) =
        sumSizes c.cache := by
      rw [sumSizes_append, sumSizes_eraseEntry_some _ k e hl]
      simp [sumSizes]
    rw [hg]
    refine ⟨?_, ?_, ?_, hpos⟩
    · intro p hp
      rcases List.mem_append.1 hp with hp | hp
      · exact wf_eraseEntry _ k hwf p hp
      · simp only [List.mem_singleton] at hp
        rw [hp]
        have he : e.size = estimate_embedding_size e.embedding :=
          wf_of_lookup _ k e hwf hl
        exact he
    · simpa [hsum2] using hsum
    · simpa [hsum2] using hbud

/-- `remove` preserves the invariant. -/
lemma inv_remove (c : EmbeddingCache) (k : String) (hinv : CacheInv c) :
    CacheInv (c.remove k) := by
  obtain ⟨hwf, hsum, hbud, hpos⟩ := hinv
  cases hl : lookupEntry c.cache k with
  | none =>
    have hr : c.remove k = c := by
      unfold EmbeddingCache.remove
      rw [hl]
    rw [hr]
    exact ⟨hwf, hsum, hbud, hpos⟩
  | some e =>
    have hr : c.remove k = { c with
        cache := eraseEntry c.cache k,
        current_memory_bytes := c.current_memory_bytes - e.size } := by
      unfold EmbeddingCache.remove
      rw [hl]
    have hnn : 0 ≤ e.size := by
      rw [wf_of_lookup _ k e hwf hl]
      exact estimate_nonneg _
    rw [hr]
    refine ⟨wf_eraseEntry _ k hwf, ?_, ?_, hpos⟩
    · show sumSizes (eraseEntry c.cache k) ≤ c.current_memory_bytes - e.size
      rw [sumSizes_eraseEntry_some _ k e hl]
      omega
    · show sumSizes (eraseEntry c.cache k) ≤ c.max_memory_bytes
      rw [sumSizes_eraseEntry_some _ k e hl]
      omega

/-- `clear` preserves the invariant. -/
lemma inv_clear (c : EmbeddingCache) (hinv : CacheInv c) : CacheInv c.clear := by
  obtain ⟨_, _, _, hpos⟩ := hinv
  exact ⟨by simp [EmbeddingCache.clear], by simp [EmbeddingCache.clear, sumSizes],
    by simpa [EmbeddingCache.clear, sumSizes] using hpos, hpos⟩

/-- Operations never change the configured memory budget. -/
lemma applyOp_preserves_max (c : EmbeddingCache) (op : CacheOp) :
    (applyOp c op).max_memory_bytes = c.max_memory_bytes := by
  cases op with
  | put now k emb =>
    simp [applyOp, EmbeddingCache.put, EmbeddingCache.evict_if_needed]
  | get now k =>
    cases hl : lookupEntry c.cache k with
    | none =>
      have hg : (c.get now k).2 = c := by
        unfold EmbeddingCache.get
        rw [hl]
      simp [applyOp, hg]
    | some e =>
      have hg : (c.get now k).2 = { c with cache := eraseEntry c.cache k ++
          [(k, { e with last_accessed := now, access_count := e.access_count + 1 })] } := by
        unfold EmbeddingCache.get
        rw [hl]
      simp [applyOp, hg]
  | remove k =>
    cases hl : lookupEntry c.cache k with
    | none =>
      have hr : c.remove k = c := by
        unfold EmbeddingCache.remove
        rw [hl]
      simp [applyOp, hr]
    | some e =>
      have hr : c.remove k = { c with
          cache := eraseEntry c.cache k,
          current_memory_bytes := c.current_memory_bytes - e.size } := by
        unfold EmbeddingCache.remove
        rw [hl]
      simp [applyOp, hr]
  | clear => simp [applyOp, EmbeddingCache.clear]

/-- One budget-respecting operation preserves the invariant. -/
lemma inv_applyOp (c : EmbeddingCache) (op : CacheOp) (hinv : CacheInv c)
    (hop : opWithinBudget c.max_memory_bytes op = true) : CacheInv (applyOp c op) := by
  cases op with
  | put now k emb =>
    simp only [opWithinBudget, decide_eq_true_eq] at hop
    exact inv_put c now k emb hinv hop
  | get now k => exact inv_get c now k hinv
  | remove k => exact inv_remove c k hinv
  | clear => exact inv_clear c hinv

/-- Budget-respecting operation sequences preserve the invariant. -/
lemma inv_runOps : ∀ (ops : List CacheOp) (c : EmbeddingCache), CacheInv c →
    (∀ op ∈ ops, opWithinBudget c.max_memory_bytes op = true) →
    CacheInv (runOps c ops) := by
  intro ops
  induction ops with
  | nil => intro c h _; exact h
  | cons op rest ih =>
    intro c hinv hops
    have h1 := inv_applyOp c op hinv (hops op (List.mem_cons_self _ _))
    have h2 : ∀ o ∈ rest, opWithinBudget (applyOp c op).max_memory_bytes o = true := by
      intro o ho
      rw [applyOp_preserves_max]
      exact hops o (List.mem_cons_of_mem _ ho)
    exact ih (applyOp c op) h1 h2

/-- Operation sequences never change the configured memory budget. -/
lemma runOps_preserves_max : ∀ (ops : List CacheOp) (c : EmbeddingCache),
    (runOps c ops).max_memory_bytes = c.max_memory_bytes := by
  intro ops
  induction ops with
  | nil => intro c; rfl
  | cons op rest ih =>
    intro c
    have h := ih (applyOp c op)
    rw [applyOp_preserves_max] at h
    exact h

/-- Decimal digit characters are injective below 10. -/
lemma digitChar_inj10 (a b : Nat) (ha : a < 10) (hb : b < 10)
    (h : Nat.digitChar a = Nat.digitChar b) : a = b := by
  interval_cases a <;> interval_cases b <;> revert h <;> decide

/-- Mapping `digitChar` over digit lists is injective. -/
lemma map_digitChar_inj : ∀ l1 l2 : List Nat, (∀ x ∈ l1, x < 10) → (∀ x ∈ l2, x < 10) →
    l1.map Nat.digitChar = l2.map Nat.digitChar → l1 = l2 := by
  intro l1
  induction l1 with
  | nil =>
    intro l2 _ _ h
    cases l2 with
    | nil => rfl
    | cons b bs => simp at h
  | cons a as ih =>
    intro l2 h1 h2 h
    cases l2 with
    | nil => simp at h
    | cons b bs =>
      simp only [List.map_cons, List.cons.injEq] at h
      rw [digitChar_inj10 a b (h1 a (List.mem_cons_self a as))
        (h2 b (List.mem_cons_self b bs)) h.1,
        ih bs (fun x hx => h1 x (List.mem_cons_of_mem a hx))
          (fun x hx => h2 x (List.mem_cons_of_mem b hx)) h.2]

/-- The decimal rendering `str(i)` is injective. -/
lemma natChars_inj (m n : Nat) (h : natChars m = natChars n) : m = n := by
  unfold natChars at h
  by_cases hm : m = 0 <;> by_cases hn : n = 0
  · omega
  · rw [if_pos hm, if_neg hn] at h
    have hlen := congrArg List.length h
    simp only [List.length_cons, List.length_nil, List.length_map,
      List.length_reverse] at hlen
    obtain ⟨d, hd⟩ : ∃ d, Nat.digits 10 n = [d] := by
      cases hdig : Nat.digits 10 n with
      | nil => rw [hdig] at hlen; simp at hlen
      | cons d rest =>
        rw [hdig] at hlen
        simp at hlen
        exact ⟨d, by rw [hlen]⟩
    rw [hd] at h
    simp only [List.reverse_cons, List.reverse_nil, List.nil_append,
      List.map_cons, List.map_nil, List.cons.injEq] at h
    have hd10 : d < 10 := Nat.digits_lt_base (by norm_num) (hd ▸ List.mem_singleton_self d)
    have hd0 : d = 0 := (digitChar_inj10 0 d (by norm_num) hd10 h.1).symm
    have := Nat.ofDigits_digits 10 n
    rw [hd, hd0] at this
    simp [Nat.ofDigits] at this
    omega
  · rw [if_neg hm, if_pos hn] at h
    have hlen := congrArg List.length h
    simp only [List.length_cons, List.length_nil, List.length_map,
      List.length_reverse] at hlen
    obtain ⟨d, hd⟩ : ∃ d, Nat.digits 10 m = [d] := by
      cases hdig : Nat.digits 10 m with
      | nil => rw [hdig] at hlen; simp at hlen
      | cons d rest =>
        rw [hdig] at hlen
        simp at hlen
        exact ⟨d, by rw [hlen]⟩
    rw [hd] at h
    simp only [List.reverse_cons, List.reverse_nil, List.nil_append,
      List.map_cons, List.map_nil, List.cons.injEq] at h
    have hd10 : d < 10 := Nat.digits_lt_base (by norm_num) (hd ▸ List.mem_singleton_self d)
    have hd0 : d = 0 := digitChar_inj10 d 0 hd10 (by norm_num) h.1
    have := Nat.ofDigits_digits 10 m
    rw [hd, hd0] at this
    simp [Nat.ofDigits] at this
    omega
  · rw [if_neg hm, if_neg hn] at h
    rw [List.map_reverse, List.map_reverse] at h
    have h2 := List.reverse_injective h
    have h3 := map_digitChar_inj _ _
      (fun x hx => Nat.digits_lt_base (by norm_num) hx)
      (fun x hx => Nat.digits_lt_base (by norm_num) hx) h2
    exact Nat.digits.injective 10 h3

/-- `str(i)` never renders as the empty character list. -/
lemma natChars_ne_nil (n : Nat) : natChars n ≠ [] := by
  unfold natChars
  by_cases hn : n = 0
  · simp [hn]
  · rw [if_neg hn]
    intro h
    have := congrArg List.length h
    simp [Nat.digits_ne_nil_iff_ne_zero.2 hn] at this

/-- Distinct chunk indices give distinct chunk keys. -/
lemma chunkKey_inj (key : String) (i j : Nat) (h : chunkKey key i = chunkKey key j) :
    i = j := by
  unfold chunkKey natStr at h
  have hd := congrArg String.data h
  simp only [String.data_append] at hd
  have h2 := List.append_cancel_left hd
  exact natChars_inj i j h2

/-- The manifest key differs from every chunk key. -/
lemma infoKey_ne_chunkKey (key : String) (i : Nat) :
    infoKey key ≠ chunkKey key i := by
  unfold infoKey chunkKey natStr
  intro h
  have hd := congrArg String.data h
  simp only [String.data_append] at hd
  rw [List.append_assoc] at hd
  have h2 := List.append_cancel_left hd
  simp at h2

/-- A key differs from the manifest key derived from it. -/
lemma ne_infoKey (key : String) : key ≠ infoKey key := by
  unfold infoKey
  intro h
  have hd := congrArg (fun s => s.data.length) h
  simp [String.data_append] at hd

/-- A key differs from every chunk key derived from it. -/
lemma ne_chunkKey (key : String) (i : Nat) : key ≠ chunkKey key i := by
  unfold chunkKey
  intro h
  have hd := congrArg (fun s => s.data.length) h
  simp only [String.data_append, List.length_append] at hd
  have hne := natChars_ne_nil i
  have : (natStr i).data.length ≠ 0 := by
    unfold natStr
    simpa using fun hh => hne (List.length_eq_zero.1 hh)
  omega

/-- Reading the key just written. -/
lemma rget_rsetex_eq (db : RedisDB) (k : String) (v : RVal) (ttl : Nat) :
    rget (rsetex db k v ttl) k = some v := by
  simp [rsetex, rget]

/-- Deleting a key leaves other keys alone. -/
lemma rget_rdelete_ne (db : RedisDB) (k k' : String) (h : k' ≠ k) :
    rget (rdelete db k) k' = rget db k' := by
  induction db with
  | nil => rfl
  | cons p rest ih =>
    obtain ⟨k'', v⟩ := p
    by_cases hk : k'' = k
    · rw [rdelete, if_pos hk, ih, rget,
        if_neg fun he => h (by rw [← he]; exact hk)]
    · rw [rdelete, if_neg hk]
      by_cases hk2 : k'' = k'
      · rw [rget, if_pos hk2, rget, if_pos hk2]
      · rw [rget, if_neg hk2, rget, if_neg hk2, ih]

/-- A deleted key is gone. -/
lemma rget_rdelete_eq (db : RedisDB) (k : String) :
    rget (rdelete db k) k = none := by
  induction db with
  | nil => rfl
  | cons p rest ih =>
    obtain ⟨k'', v⟩ := p
    by_cases hk : k'' = k
    · rw [rdelete, if_pos hk]
      exact ih
    · rw [rdelete, if_neg hk, rget, if_neg hk]
      exact ih

/-- Writing one key leaves other keys alone. -/
lemma rget_rsetex_ne (db : RedisDB) (k k' : String) (v : RVal) (ttl : Nat)
    (h : k' ≠ k) : rget (rsetex db k v ttl) k' = rget db k' := by
  rw [rsetex, rget, if_neg fun he => h he.symm]
  exact rget_rdelete_ne db k k' h

/-- The chunk-store loop, one step. -/
lemma storeChunks_succ (key : String) (data : Bytes) (ttl n : Nat) (db : RedisDB) :
    storeChunks key data ttl (n + 1) db =
      rsetex (storeChunks key data ttl n db) (chunkKey key n)
        (.raw (chunkSlice data n)) ttl := by
  unfold storeChunks
  rw [List.range_succ, List.foldl_append, List.foldl_cons, List.foldl_nil]

/-- The chunk-store loop leaves unrelated keys alone. -/
lemma rget_storeChunks_other (key : String) (data : Bytes) (ttl : Nat) :
    ∀ (n : Nat) (db : RedisDB) (k' : String), (∀ i, i < n → k' ≠ chunkKey key i) →
    rget (storeChunks key data ttl n db) k' = rget db k' := by
  intro n
  induction n with
  | zero => intro db k' _; rfl
  | succ n ih =>
    intro db k' h
    rw [storeChunks_succ, rget_rsetex_ne _ _ _ _ _ (h n (Nat.lt_succ_self n))]
    exact ih db k' fun i hi => h i (Nat.lt_succ_of_lt hi)

/-- The chunk-store loop stores each chunk retrievably. -/
lemma rget_storeChunks_hit (key : String) (data : Bytes) (ttl : Nat) :
    ∀ (n : Nat) (db : RedisDB) (i : Nat), i < n →
    rget (storeChunks key data ttl n db) (chunkKey key i) =
      some (.raw (chunkSlice data i)) := by
  intro n
  induction n with
  | zero => intro db i hi; omega
  | succ n ih =>
    intro db i hi
    rw [storeChunks_succ]
    by_cases hin : i = n
    · rw [hin]
      exact rget_rsetex_eq _ _ _ _
    · rw [rget_rsetex_ne _ _ _ _ _ fun he => hin (chunkKey_inj key i n he)]
      exact ih db i (by omega)

/-- Concatenating enough fixed-size slices of a list reproduces it. -/
lemma flatten_slices (C : Nat) : ∀ (n : Nat) (d : Bytes),
    d.length ≤ n * C →
    ((List.range n).map fun i => (d.drop (i * C)).take C).flatten = d := by
  intro n
  induction n with
  | zero =>
    intro d h
    simp only [Nat.zero_mul, Nat.le_zero] at h
    rw [List.eq_nil_of_length_eq_zero h]
    rfl
  | succ n ih =>
    intro d h
    rw [List.range_succ_eq_map, List.map_cons, List.map_map, List.flatten_cons]
    have htail : ∀ i ∈ List.range n,
        ((fun i => (d.drop (i * C)).take C) ∘ Nat.succ) i =
        (fun i => (((d.drop C).drop (i * C)).take C)) i := by
      intro i _
      simp only [Function.comp_apply]
      congr 1
      rw [List.drop_drop]
      congr 1
      rw [Nat.succ_mul]
      omega
    rw [List.map_congr_left htail]
    rw [Nat.succ_mul] at h
    rw [ih (d.drop C) (by rw [List.length_drop]; omega)]
    simp only [Nat.zero_mul, List.drop_zero]
    exact List.take_append_drop C d

/-- A chunk slice strictly inside the payload is non-empty. -/
lemma chunkSlice_ne_nil (data : Bytes) (i : Nat)
    (h : i * LOGIT_CHUNK_SIZE < data.length) : chunkSlice data i ≠ [] := by
  unfold chunkSlice
  intro hc
  have h1 := congrArg List.length hc
  rw [List.length_take, List.length_drop] at h1
  unfold LOGIT_CHUNK_SIZE at h h1
  simp at h1
  omega

/-- Every chunk index below `numChunks` starts inside the payload. -/
lemma chunk_start_lt (len i : Nat) (hlen : 0 < len) (hi : i < numChunks len) :
    i * LOGIT_CHUNK_SIZE < len := by
  unfold numChunks at hi
  unfold LOGIT_CHUNK_SIZE at hi ⊢
  omega

/-- The payload fits in `numChunks` chunks. -/
lemma len_le_numChunks_mul (len : Nat) :
    len ≤ numChunks len * LOGIT_CHUNK_SIZE := by
  unfold numChunks LOGIT_CHUNK_SIZE
  omega

/-- When every chunk in range is present and non-empty, the collection loop
returns their concatenation. -/
lemma collectChunks_all (db : RedisDB) (key : String) (data : Bytes) :
    ∀ (count start : Nat),
    (∀ j, start ≤ j → j < start + count →
      rgetBytes db (chunkKey key j) = some (chunkSlice data j) ∧
        chunkSlice data j ≠ []) →
    collectChunks db key count start =
      some (((List.range count).map fun t => chunkSlice data (start + t)).flatten) := by
  intro count
  induction count with
  | zero => intro start _; rfl
  | succ count ih =>
    intro start h
    have h0 := h start (Nat.le_refl _) (by omega)
    rw [collectChunks, h0.1]
    simp only [if_neg h0.2]
    rw [ih (start + 1) fun j hj1 hj2 => h j (by omega) (by omega)]
    simp only [Option.some.injEq]
    rw [List.range_succ_eq_map, List.map_cons, List.map_map, List.flatten_cons,
      Nat.add_zero]
    have hmap : (List.range count).map (fun t => chunkSlice data (start + 1 + t)) =
        (List.range count).map ((fun t => chunkSlice data (start + t)) ∘ Nat.succ) := by
      apply List.map_congr_left
      intro t _
      simp only [Function.comp_apply, Nat.succ_eq_add_one]
      rw [show start + (t + 1) = start + 1 + t from by omega]
    rw [hmap, Nat.add_zero]

/-- If some chunk in range is absent or empty, the collection loop fails. -/
lemma collectChunks_fails (db : RedisDB) (key : String) :
    ∀ (count start i : Nat), start ≤ i → i < start + count →
    truthy (rgetBytes db (chunkKey key i)) = none →
    collectChunks db key count start = none := by
  intro count
  induction count with
  | zero => intro start i h1 h2 _; omega
  | succ count ih =>
    intro start i h1 h2 h3
    by_cases hi : i = start
    · subst hi
      cases hb : rgetBytes db (chunkKey key i) with
      | none => rw [collectChunks, hb]
      | some b =>
        have hbnil : b = [] := by
          rw [hb] at h3
          cases b with
          | nil => rfl
          | cons x xs => simp [truthy] at h3
        rw [collectChunks, hb, hbnil]
        simp
    · cases hb : rgetBytes db (chunkKey key start) with
      | none => rw [collectChunks, hb]
      | some b =>
        rw [collectChunks, hb]
        by_cases hbe : b = []
        · simp [hbe]
        · simp only [if_neg hbe]
          rw [ih (start + 1) i (by omega) (by omega) h3]

/-- `decode` of a `PICKLE:`-framed payload strips the tag. -/
lemma deserialize_pickle (decompress : Bytes → Bytes) (s : Bytes) :
    deserialize_with_compression decompress (pickleTag ++ s) = s := by
  unfold deserialize_with_compression
  rw [show gzipTag.isPrefixOf (pickleTag ++ s) = false from rfl,
    show pickleTag.isPrefixOf (pickleTag ++ s) = true by
      rw [List.isPrefixOf_iff_prefix]; exact List.prefix_append _ _]
  rfl

/-- `decode` of a `GZIP:`-framed payload strips the tag and decompresses. -/
lemma deserialize_gzip (decompress : Bytes → Bytes) (c : Bytes) :
    deserialize_with_compression decompress (gzipTag ++ c) = decompress c := by
  unfold deserialize_with_compression
  rw [show gzipTag.isPrefixOf (gzipTag ++ c) = true by
    rw [List.isPrefixOf_iff_prefix]; exact List.prefix_append _ _]
  rfl

/-- The framed round trip: `decode(encode(s)) = s` given that `decompress`
inverts `compress` on `s`. -/
lemma deserialize_serialize (compress decompress : Bytes → Bytes) (s : Bytes)
    (h : decompress (compress s) = s) :
    deserialize_with_compression decompress (serialize_with_compression compress s) = s := by
  unfold serialize_with_compression
  by_cases h1 : s.length > COMPRESSION_THRESHOLD
  · rw [if_pos h1]
    by_cases h2 : (compress s).length < s.length
    · rw [if_pos h2, deserialize_gzip, h]
    · rw [if_neg h2, deserialize_pickle]
  · rw [if_neg h1, deserialize_pickle]

/-- The framed payload is never empty (it always carries a tag). -/
lemma serialize_ne_nil (compress : Bytes → Bytes) (s : Bytes) :
    serialize_with_compression compress s ≠ [] := by
  unfold serialize_with_compression
  by_cases h1 : s.length > COMPRESSION_THRESHOLD
  · rw [if_pos h1]
    by_cases h2 : (compress s).length < s.length
    · rw [if_pos h2]; simp [gzipTag]
    · rw [if_neg h2]; simp [pickleTag]
  · rw [if_neg h1]; simp [pickleTag]

/-- `truthy` of a non-empty byte string is itself. -/
lemma truthy_some_of_ne_nil (d : Bytes) (h : d ≠ []) : truthy (some d) = some d := by
  cases d with
  | nil => exact absurd rfl h
  | cons x xs => rfl

/-- `truthy` of an absent value. -/
lemma truthy_none : truthy none = none := rfl

/-- An oversized payload is chunked: the manifest under `key:info` and the
chunks under `key:chunk:{i}`, with success reported. -/
lemma split_large_data_big (key : String) (data : Bytes) (ttl now : Nat)
    (db : RedisDB) (h : data.length > MAX_VALUE_SIZE) :
    split_large_data key data ttl now db =
      (true, storeChunks key data ttl (numChunks data.length)
        (rsetex db (infoKey key)
          (.manifest (numChunks data.length) data.length now) ttl)) := by
  unfold split_large_data
  rw [if_neg (by omega)]

/-! ## Claim theorems -/

/-- C1 (counterexample). With the default `max_retries = 3` and an
always-raising handler, the message is re-published 3 times and then
dead-lettered once with `retry_count = 3`, but the sleep delays are
`20, 40, 80` seconds — not the `10, 20, 40` the claim states, because the
code computes `10 * 2 ** retry_count` after incrementing `retry_count`. -/
theorem c1_retry_delays_counterexample :
    run_failing 4 ⟨"m", 3, 0⟩ = ([20, 40, 80], [3]) ∧
      ([20, 40, 80] : List Nat) ≠ [10, 20, 40] := by
  decide

/-- C1 (amended). A message with `retry_count = 0` whose handler raises on
every delivery is re-published exactly `max_retries` times, the sleep delay
before the `k`-th retry publish (`k = 1..max_retries`) being
`min(300, 10 * 2^k)` — i.e. 20, 40, 80, ... capped at 300 — and is then
published to the dead-letter topic exactly once, the dead-lettered body
carrying `retry_count = max_retries`. -/
theorem c1_retry_schedule_amended (m : SegmentMessage) (h : m.retry_count = 0) :
    run_failing (m.max_retries + 1) m =
      ((List.range m.max_retries).map (fun k => min 300 (10 * 2 ^ (k + 1))),
        [m.max_retries]) := by
  have heq := run_failing_eq (m.max_retries + 1) m (by omega) (by omega)
  rw [heq, h]
  simp

/-- C1 (witness). The amended schedule at the default `max_retries = 3`:
delays 20, 40, 80 and one dead-letter carrying 3. -/
theorem c1_retry_schedule_witness :
    run_failing 4 ⟨"msg-1", 3, 0⟩ = ([20, 40, 80], [3]) := by
  have h := c1_retry_schedule_amended ⟨"msg-1", 3, 0⟩ rfl
  exact h.trans (by decide)

/-- C2 (counterexample). Putting a single entry whose size estimate
(1048580 bytes) exceeds the 1 MiB budget into an empty cache: the insertion
is **performed**, not abandoned, and the sum of cached entry sizes then
exceeds `max_memory_bytes`, violating the claimed invariant. -/
theorem c2_budget_counterexample :
    (lookupEntry (applyOp (EmbeddingCache.init 10 1)
        (.put 0 "big" (some 262145))).cache "big").isSome = true ∧
    sumSizes (applyOp (EmbeddingCache.init 10 1)
        (.put 0 "big" (some 262145))).cache = 1048580 ∧
    (EmbeddingCache.init 10 1).max_memory_bytes = 1048576 ∧
    ¬ sumSizes (applyOp (EmbeddingCache.init 10 1)
        (.put 0 "big" (some 262145))).cache ≤
      (applyOp (EmbeddingCache.init 10 1)
        (.put 0 "big" (some 262145))).max_memory_bytes := by
  decide

/-- C2 (amended). For every sequence of put/get/remove/clear operations in
which each put's size estimate fits the (non-negative) budget by itself,
the sum of the byte-size estimates of the cached entries is at most
`max_memory_bytes` after every operation (every such sequence, hence every
prefix). A single oversized put, however, is **inserted**, not abandoned —
only the eviction loop is aborted with a warning (see the
counterexample). -/
theorem c2_budget_invariant_amended (max_cache_size : Nat) (max_memory_mb : Int)
    (hmb : 0 ≤ max_memory_mb) (ops : List CacheOp)
    (hops : ∀ op ∈ ops, opWithinBudget
      (EmbeddingCache.init max_cache_size max_memory_mb).max_memory_bytes op = true) :
    sumSizes (runOps (EmbeddingCache.init max_cache_size max_memory_mb) ops).cache ≤
      (EmbeddingCache.init max_cache_size max_memory_mb).max_memory_bytes := by
  have hpos : 0 ≤ (EmbeddingCache.init max_cache_size max_memory_mb).max_memory_bytes := by
    simp only [EmbeddingCache.init]
    exact mul_nonneg (mul_nonneg hmb (by norm_num)) (by norm_num)
  have hinit : CacheInv (EmbeddingCache.init max_cache_size max_memory_mb) := by
    refine ⟨by simp [EmbeddingCache.init], by simp [EmbeddingCache.init, sumSizes],
      ?_, hpos⟩
    simpa [EmbeddingCache.init, sumSizes] using hpos
  have h := inv_runOps ops _ hinit hops
  have hmax := runOps_preserves_max ops (EmbeddingCache.init max_cache_size max_memory_mb)
  rw [← hmax]
  exact h.2.2.1

/-- C2 (witness). A concrete budget-respecting sequence over a 2-entry,
1 MiB cache, ending in a put of exactly the budget size: the sum of entry
sizes stays within the budget. -/
theorem c2_budget_invariant_witness :
    sumSizes (runOps (EmbeddingCache.init 2 1)
      [.put 0 "a" (some 100), .put 1 "b" (some 200), .get 2 "a", .remove "b",
        .clear, .put 3 "c" (some 262144)]).cache ≤
      (EmbeddingCache.init 2 1).max_memory_bytes :=
  c2_budget_invariant_amended 2 1 (by norm_num) _ (by decide)

/-- C3 (counterexample). With grid size 20, the single clicks `(99, 200)`
and `(101, 200)` differ by 2 < g/2 = 10 in each coordinate, share the
category and the (singleton) order, yet produce different digests: the
quantization is by grid cell (`v // 20`), and 99 and 101 fall in different
cells. -/
theorem c3_tolerance_counterexample :
    (|(99 : Int) - 101| < 20 / 2 ∧ |(200 : Int) - 200| < 20 / 2 ∧
      Click.clickType ⟨99, 200, 1⟩ = Click.clickType ⟨101, 200, 1⟩) ∧
    generate_click_signature [⟨99, 200, 1⟩] 20 ≠
      generate_click_signature [⟨101, 200, 1⟩] 20 := by
  decide

/-- C3 (amended). Two click sequences of the same length whose
corresponding points share the category and fall in the same grid cell
(equal `x // g` and `y // g` — the actual tolerance, rather than any
`< g/2` coordinate difference) produce identical digests; the spec's
concrete examples hold: with g=20, `[{x:100,y:200,cat:1}]` and
`[{x:105,y:205,cat:1}]` give equal signatures while `[{x:130,y:230,cat:1}]`
gives a different one. -/
theorem c3_same_cell_amended (g : Int) (cs1 cs2 : List Click)
    (h : sameCells g cs1 cs2 = true) :
    generate_click_signature cs1 g = generate_click_signature cs2 g ∧
    generate_click_signature [⟨100, 200, 1⟩] 20 =
      generate_click_signature [⟨105, 205, 1⟩] 20 ∧
    generate_click_signature [⟨100, 200, 1⟩] 20 ≠
      generate_click_signature [⟨130, 230, 1⟩] 20 := by
  refine ⟨?_, by decide, by decide⟩
  have hmap := smooth_eq_of_sameCells g cs1 cs2 h
  have hlen : cs1.length = cs2.length := by
    have hl := congrArg List.length hmap
    simpa using hl
  by_cases h1 : cs1 = []
  · have h2 : cs2 = [] := by
      subst h1
      exact List.eq_nil_of_length_eq_zero hlen.symm
    rw [h1, h2]
  · have h2 : cs2 ≠ [] := by
      intro hh
      subst hh
      exact h1 (List.eq_nil_of_length_eq_zero hlen)
    unfold generate_click_signature
    rw [if_neg h1, if_neg h2]
    simp only [clickStr, hmap]

/-- C3 (witness). The amended theorem applied at g=20 to the concrete
same-cell pair from the spec example. -/
theorem c3_same_cell_witness :
    generate_click_signature [⟨100, 200, 1⟩] 20 =
      generate_click_signature [⟨105, 205, 1⟩] 20 :=
  (c3_same_cell_amended 20 [⟨100, 200, 1⟩] [⟨105, 205, 1⟩] (by decide)).1

/-- The manifest is readable after the chunk-store loop. -/
lemma rget_info_after_store (key : String) (d : Bytes) (ttl now n : Nat) (db : RedisDB) :
    rget (storeChunks key d ttl n
        (rsetex db (infoKey key) (.manifest n d.length now) ttl)) (infoKey key) =
      some (.manifest n d.length now) := by
  rw [rget_storeChunks_other key d ttl n _ (infoKey key)
    (fun j _ => infoKey_ne_chunkKey key j)]
  exact rget_rsetex_eq db (infoKey key) _ ttl

/-- Chunking an oversized framed payload and reading it back via the
manifest reproduces the payload. -/
lemma get_large_data_after_store (key : String) (d : Bytes) (ttl now : Nat)
    (db : RedisDB) (hbig : d.length > MAX_VALUE_SIZE) :
    get_large_data (storeChunks key d ttl (numChunks d.length)
        (rsetex db (infoKey key) (.manifest (numChunks d.length) d.length now) ttl))
      key = some d := by
  have hlen0 : 0 < d.length := by
    unfold MAX_VALUE_SIZE at hbig
    omega
  have hchunks : ∀ j, 0 ≤ j → j < 0 + numChunks d.length →
      rgetBytes (storeChunks key d ttl (numChunks d.length)
          (rsetex db (infoKey key) (.manifest (numChunks d.length) d.length now) ttl))
        (chunkKey key j) = some (chunkSlice d j) ∧ chunkSlice d j ≠ [] := by
    intro j _ hj
    rw [Nat.zero_add] at hj
    constructor
    · unfold rgetBytes
      rw [rget_storeChunks_hit key d ttl (numChunks d.length) _ j hj]
    · exact chunkSlice_ne_nil d j (chunk_start_lt d.length j hlen0 hj)
  have hflat : ((List.range (numChunks d.length)).map
      fun t => chunkSlice d (0 + t)).flatten = d := by
    simp only [Nat.zero_add]
    unfold chunkSlice
    exact flatten_slices LOGIT_CHUNK_SIZE (numChunks d.length) d
      (len_le_numChunks_mul d.length)
  unfold get_large_data
  simp only [rget_info_after_store key d ttl now (numChunks d.length) db]
  rw [collectChunks_all _ key d (numChunks d.length) 0 hchunks, hflat]

/-- The chunked branch of `set_sam_logit`, written out. -/
lemma set_sam_logit_big (compress : Bytes → Bytes)
    (image_hash click_signature : String) (s : Bytes) (ttl now : Nat) (db : RedisDB)
    (hbig : (serialize_with_compression compress s).length > MAX_VALUE_SIZE) :
    set_sam_logit compress image_hash click_signature s ttl now db =
      storeChunks (logitKey image_hash click_signature)
        (serialize_with_compression compress s) ttl
        (numChunks (serialize_with_compression compress s).length)
        (rsetex db (infoKey (logitKey image_hash click_signature))
          (.manifest (numChunks (serialize_with_compression compress s).length)
            (serialize_with_compression compress s).length now) ttl) := by
  simp only [set_sam_logit]
  rw [if_pos hbig, split_large_data_big _ _ _ _ _ hbig]
  rfl

/-- The plain branch of `set_sam_logit`, written out. -/
lemma set_sam_logit_small (compress : Bytes → Bytes)
    (image_hash click_signature : String) (s : Bytes) (ttl now : Nat) (db : RedisDB)
    (hsmall : ¬ (serialize_with_compression compress s).length > MAX_VALUE_SIZE) :
    set_sam_logit compress image_hash click_signature s ttl now db =
      rsetex db (logitKey image_hash click_signature)
        (.raw (serialize_with_compression compress s)) ttl := by
  simp only [set_sam_logit]
  rw [if_neg hsmall]

/-- C4. Codec round trip through the logit cache: writing a serialized
payload with `set_sam_logit` and reading it back with `get_sam_logit`
recovers it exactly — both when the framed payload fits in a single value
and when it exceeds `MAX_VALUE_SIZE` and is split into 64 KiB chunks plus a
manifest and reassembled on read. `compress`/`decompress` model `gzip`
under its round-trip law; the payload `s` is the `pickle` serialization of
the value, so recovering `s` is `decode(encode(v)) == v`. The store must
not already hold a stale manifest under the entry's `:info` key. -/
theorem c4_codec_round_trip (compress decompress : Bytes → Bytes)
    (image_hash click_signature : String) (s : Bytes) (ttl now : Nat) (db : RedisDB)
    (hinv : decompress (compress s) = s)
    (hfresh : rget db (infoKey (logitKey image_hash click_signature)) = none) :
    get_sam_logit decompress image_hash click_signature
      (set_sam_logit compress image_hash click_signature s ttl now db) = some s := by
  by_cases hbig : (serialize_with_compression compress s).length > MAX_VALUE_SIZE
  · rw [set_sam_logit_big compress image_hash click_signature s ttl now db hbig]
    simp only [get_sam_logit,
      get_large_data_after_store (logitKey image_hash click_signature)
        (serialize_with_compression compress s) ttl now db hbig,
      truthy_some_of_ne_nil _ (serialize_ne_nil compress s),
      deserialize_serialize compress decompress s hinv]
  · rw [set_sam_logit_small compress image_hash click_signature s ttl now db hbig]
    have hinfo2 : rget (rsetex db (logitKey image_hash click_signature)
        (.raw (serialize_with_compression compress s)) ttl)
        (infoKey (logitKey image_hash click_signature)) = none := by
      rw [rget_rsetex_ne db _ _ _ ttl
        (Ne.symm (ne_infoKey (logitKey image_hash click_signature)))]
      exact hfresh
    have hgld2 : get_large_data (rsetex db (logitKey image_hash click_signature)
        (.raw (serialize_with_compression compress s)) ttl)
        (logitKey image_hash click_signature) = none := by
      unfold get_large_data
      simp only [hinfo2]
    have hrb : rgetBytes (rsetex db (logitKey image_hash click_signature)
        (.raw (serialize_with_compression compress s)) ttl)
        (logitKey image_hash click_signature) =
        some (serialize_with_compression compress s) := by
      unfold rgetBytes
      rw [rget_rsetex_eq]
    simp only [get_sam_logit, hgld2, truthy_none, hrb,
      truthy_some_of_ne_nil _ (serialize_ne_nil compress s),
      deserialize_serialize compress decompress s hinv]

/-- C4 (witness). A small payload stored and read back through the plain
path of the logit cache on an empty store. -/
theorem c4_codec_round_trip_witness :
    get_sam_logit (fun b => b) "H" "S"
      (set_sam_logit (fun b => b) "H" "S" [1, 2, 3] 30 0 []) = some [1, 2, 3] :=
  c4_codec_round_trip (fun b => b) (fun b => b) "H" "S" [1, 2, 3] 30 0 [] rfl rfl

/-- C5. Chunk atomicity: if a chunked logit entry is written and any one of
its chunk keys is then deleted, the read reports a miss (`None`) — it never
returns a value reassembled from fewer than the manifest's chunk count. -/
theorem c5_chunk_atomicity (compress decompress : Bytes → Bytes)
    (image_hash click_signature : String) (s : Bytes) (ttl now : Nat) (db : RedisDB)
    (i : Nat)
    (hbig : (serialize_with_compression compress s).length > MAX_VALUE_SIZE)
    (hi : i < numChunks (serialize_with_compression compress s).length)
    (hplain : rget db (logitKey image_hash click_signature) = none) :
    get_sam_logit decompress image_hash click_signature
      (rdelete (set_sam_logit compress image_hash click_signature s ttl now db)
        (chunkKey (logitKey image_hash click_signature) i)) = none := by
  rw [set_sam_logit_big compress image_hash click_signature s ttl now db hbig]
  have hinfoD : rget (rdelete (storeChunks (logitKey image_hash click_signature)
      (serialize_with_compression compress s) ttl
      (numChunks (serialize_with_compression compress s).length)
      (rsetex db (infoKey (logitKey image_hash click_signature))
        (.manifest (numChunks (serialize_with_compression compress s).length)
          (serialize_with_compression compress s).length now) ttl))
      (chunkKey (logitKey image_hash click_signature) i))
      (infoKey (logitKey image_hash click_signature)) =
      some (.manifest (numChunks (serialize_with_compression compress s).length)
        (serialize_with_compression compress s).length now) := by
    rw [rget_rdelete_ne _ _ _
      (infoKey_ne_chunkKey (logitKey image_hash click_signature) i)]
    exact rget_info_after_store (logitKey image_hash click_signature)
      (serialize_with_compression compress s) ttl now
      (numChunks (serialize_with_compression compress s).length) db
  have hmiss : truthy (rgetBytes (rdelete (storeChunks (logitKey image_hash click_signature)
      (serialize_with_compression compress s) ttl
      (numChunks (serialize_with_compression compress s).length)
      (rsetex db (infoKey (logitKey image_hash click_signature))
        (.manifest (numChunks (serialize_with_compression compress s).length)
          (serialize_with_compression compress s).length now) ttl))
      (chunkKey (logitKey image_hash click_signature) i))
      (chunkKey (logitKey image_hash click_signature) i)) = none := by
    unfold rgetBytes
    rw [rget_rdelete_eq]
    rfl
  have hgld : get_large_data (rdelete (storeChunks (logitKey image_hash click_signature)
      (serialize_with_compression compress s) ttl
      (numChunks (serialize_with_compression compress s).length)
      (rsetex db (infoKey (logitKey image_hash click_signature))
        (.manifest (numChunks (serialize_with_compression compress s).length)
          (serialize_with_compression compress s).length now) ttl))
      (chunkKey (logitKey image_hash click_signature) i))
      (logitKey image_hash click_signature) = none := by
    unfold get_large_data
    simp only [hinfoD]
    exact collectChunks_fails _ _ (numChunks (serialize_with_compression compress s).length)
      0 i (Nat.zero_le i) (by omega) hmiss
  have hrb : rgetBytes (rdelete (storeChunks (logitKey image_hash click_signature)
      (serialize_with_compression compress s) ttl
      (numChunks (serialize_with_compression compress s).length)
      (rsetex db (infoKey (logitKey image_hash click_signature))
        (.manifest (numChunks (serialize_with_compression compress s).length)
          (serialize_with_compression compress s).length now) ttl))
      (chunkKey (logitKey image_hash click_signature) i))
      (logitKey image_hash click_signature) = none := by
    unfold rgetBytes
    rw [rget_rdelete_ne _ _ _ (ne_chunkKey (logitKey image_hash click_signature) i),
      rget_storeChunks_other _ _ ttl _ _ _
        (fun j _ => ne_chunkKey (logitKey image_hash click_signature) j),
      rget_rsetex_ne db _ _ _ ttl (ne_infoKey (logitKey image_hash click_signature)),
      hplain]
  simp only [get_sam_logit, hgld, truthy_none, hrb]

/-- Helper for the C5 witness: framing a long incompressible payload keeps
it raw under the `PICKLE:` tag. -/
lemma serialize_id_long (s : Bytes) (h : s.length > COMPRESSION_THRESHOLD) :
    serialize_with_compression (fun b => b) s = pickleTag ++ s := by
  unfold serialize_with_compression
  rw [if_pos h, if_neg (by simp)]

/-- Helper for the C5 witness: the framed length of such a payload. -/
lemma serialize_id_long_length (s : Bytes) (h : s.length > COMPRESSION_THRESHOLD) :
    (serialize_with_compression (fun b => b) s).length = 7 + s.length := by
  rw [serialize_id_long s h, List.length_append]
  rfl

/-- Helper for the C5 witness: the oversized payload crosses the
compression threshold. -/
lemma replicate_long :
    (List.replicate 524282 (0 : Nat)).length > COMPRESSION_THRESHOLD := by
  rw [List.length_replicate]
  norm_num [COMPRESSION_THRESHOLD]

/-- C5 (witness). A 524289-byte framed payload (9 chunks) written to an
empty store; deleting chunk 0 makes the read miss. -/
theorem c5_chunk_atomicity_witness :
    get_sam_logit (fun b => b) "H" "S"
      (rdelete (set_sam_logit (fun b => b) "H" "S" (List.replicate 524282 0) 30 0 [])
        (chunkKey (logitKey "H" "S") 0)) = none :=
  c5_chunk_atomicity (fun b => b) (fun b => b) "H" "S" (List.replicate 524282 0) 30 0 [] 0
    (by
      rw [serialize_id_long_length _ replicate_long, List.length_replicate]
      norm_num [MAX_VALUE_SIZE])
    (by
      rw [serialize_id_long_length _ replicate_long, List.length_replicate]
      norm_num [numChunks, LOGIT_CHUNK_SIZE])
    rfl

/-- C6. A backend error raised during `get_sam_embedding` or
`set_sam_embedding` does not propagate: the get returns `None` (a miss) and
the set leaves the store unchanged (a no-op), the error being only
logged. -/
theorem c6_backend_error_degrades (hashR : BResult String)
    (fetch : String → BResult (Option Bytes)) (decompress compress : Bytes → Bytes)
    (s : Bytes) (ttl : Nat) (db : RedisDB) (setexFails : Bool) :
    ((hashR = .exn ∨ (∀ k, fetch k = .exn)) →
      get_sam_embedding hashR fetch decompress = none) ∧
    ((hashR = .exn ∨ setexFails = true) →
      set_sam_embedding hashR setexFails compress s ttl db = db) := by
  constructor
  · rintro (h | h)
    · simp [get_sam_embedding, h]
    · cases hashR with
      | exn => simp [get_sam_embedding]
      | ok ih => simp [get_sam_embedding, h]
  · rintro (h | h)
    · simp [set_sam_embedding, h]
    · cases hashR with
      | exn => simp [set_sam_embedding]
      | ok ih => simp [set_sam_embedding, h]

/-- C6 (witness). A raising hash/backend call yields a miss on get and a
no-op on set. -/
theorem c6_backend_error_witness :
    get_sam_embedding BResult.exn (fun _ => BResult.exn) (fun b => b) = none ∧
    set_sam_embedding BResult.exn true (fun b => b) [1] 60 [] = [] := by
  have h := c6_backend_error_degrades BResult.exn (fun _ => BResult.exn)
    (fun b => b) (fun b => b) [1] 60 [] true
  exact ⟨h.1 (Or.inl rfl), h.2 (Or.inr rfl)⟩

/-- C7. True LRU with promotion on access: with entry capacity 2, inserting
A, B, C leaves {B, C} (A evicted); inserting A, B, then `get(A)`, then C
leaves {A, C} (B evicted instead). -/
theorem c7_lru_eviction_order :
    (runOps (EmbeddingCache.init 2 1024)
      [.put 0 "A" (some 1), .put 1 "B" (some 1), .put 2 "C" (some 1)]).cache.map
        (fun p => p.1) = ["B", "C"] ∧
    (runOps (EmbeddingCache.init 2 1024)
      [.put 0 "A" (some 1), .put 1 "B" (some 1), .get 2 "A",
        .put 3 "C" (some 1)]).cache.map (fun p => p.1) = ["A", "C"] := by
  decide

/-- C8. The failing input: a store holding an orphaned chunk key
`k:chunk:0` whose manifest `k:info` has expired (is absent).
`cleanup_expired_chunks` leaves the store unchanged — the orphan is not
removed, contradicting the claim — because the scan lists only existing
manifest keys while the deletion branch requires the listed key not to
exist. -/
theorem c8_cleanup_leaves_orphan :
    cleanup_expired_chunks [("k:chunk:0", .raw [1])] = [("k:chunk:0", .raw [1])] ∧
    rexists [("k:chunk:0", RVal.raw [1])] "k:chunk:0" = true ∧
    rexists [("k:chunk:0", RVal.raw [1])] "k:info" = false := by
  refine ⟨cleanup_expired_chunks_eq_self _, by decide, by decide⟩

/-- C9. The short fingerprint is not a truncation of the full one: on the
empty click list both hash the empty string, so the short signature is the
16-character truncation of the full one; but on `[{x:100, y:200, cat:1}]`
the short variant hashes `"110,210,1"` (underscore-joined) while the full
variant hashes `"110,210,1;"` (semicolon-terminated), and the digests
disagree. -/
theorem c9_short_full_relation :
    generate_click_signature [] 20 = (generate_click_signature_full [] 20).take 16 ∧
    clickStr [⟨100, 200, 1⟩] 20 = "110,210,1" ∧
    clickStrFull [⟨100, 200, 1⟩] 20 = "110,210,1;" ∧
    generate_click_signature [⟨100, 200, 1⟩] 20 ≠
      (generate_click_signature_full [⟨100, 200, 1⟩] 20).take 16 := by
  decide

/-- C10. When the cache already holds `k` (entry `e_old`) and the eviction
loop does not fire (entry count under `max_cache_size`, tracked bytes plus
the new size within budget), `put` replaces the entry for `k` but adds the
full new size to `current_memory_bytes` without subtracting `e_old.size`:
if the counter was exact before, it now exceeds the sum of cached entry
sizes by exactly `e_old.size`. -/
theorem c10_duplicate_put_overcount (c : EmbeddingCache) (now : Nat) (k : String)
    (embedding : Option Nat) (e_old : CacheEntry)
    (hlook : lookupEntry c.cache k = some e_old)
    (hlen : c.cache.length < c.max_cache_size)
    (hmem : c.current_memory_bytes + estimate_embedding_size embedding ≤
      c.max_memory_bytes)
    (hexact : c.current_memory_bytes = sumSizes c.cache) :
    lookupEntry (c.put now k embedding).cache k =
      some ⟨embedding, estimate_embedding_size embedding, now, now, 0⟩ ∧
    (c.put now k embedding).current_memory_bytes =
      c.current_memory_bytes + estimate_embedding_size embedding ∧
    (c.put now k embedding).current_memory_bytes =
      sumSizes (c.put now k embedding).cache + e_old.size := by
  have hev : c.evict_if_needed (estimate_embedding_size embedding) = c := by
    unfold EmbeddingCache.evict_if_needed
    rw [evictLoop_no_evict _ _ _ _ _ hlen hmem]
  simp only [EmbeddingCache.put, hev]
  refine ⟨lookupEntry_setEntry_self _ _ _, trivial, ?_⟩
  rw [sumSizes_setEntry_some c.cache k _ e_old hlook, hexact]
  ring

/-- C10 (witness). A concrete cache holding `"a"` with 8 tracked bytes;
re-putting `"a"` with a 12-byte embedding leaves the counter at 20 while
the entries sum to 12 — an overcount of exactly the old size 8. -/
theorem c10_duplicate_put_witness :
    ((applyOp (EmbeddingCache.init 10 1024) (.put 0 "a" (some 2))).put 1 "a"
        (some 3)).current_memory_bytes =
      sumSizes ((applyOp (EmbeddingCache.init 10 1024) (.put 0 "a" (some 2))).put 1 "a"
        (some 3)).cache + (8 : Int) := by
  have h := c10_duplicate_put_overcount
    (applyOp (EmbeddingCache.init 10 1024) (.put 0 "a" (some 2))) 1 "a" (some 3)
    ⟨some 2, 8, 0, 0, 0⟩ (by decide) (by decide) (by decide) (by decide)
  exact h.2.2

end SegTool
